import Mathlib

/-!
Verification of the lgfontgen font-packaging pipeline.

The Python sources (`utils.py`, `font.py`, `build_files.py`) are embedded
shallowly: strings become `List Char`, byte strings become `List Nat`,
machine integers become `Nat` with explicit `% 2 ^ 32` where the code
masks, and the font/name-table state becomes explicit records.
-/

namespace LgFontGen

/-! ## Embedding of `src/utils.py` -/

/-- `sanitise_alphanum(name, to_ignore)`: keep the characters that are
alphanumeric or listed in `to_ignore`, in order (a Python generator
expression joined back into a string, i.e. a filter). -/
def sanitise_alphanum (name : List Char) (to_ignore : List Char) : List Char :=
  name.filter (fun c => c.isAlphanum || to_ignore.contains c)

/-- `str.rfind('.')` on a filename: index of the last `'.'`, if any. -/
def rfindDot (name : List Char) : Option Nat :=
  if '.' ∈ name then some (name.length - 1 - name.reverse.indexOf '.') else none

/-- `pathlib.PurePath.suffix` on a filename `name`: the part of the name
from the last dot on, provided the dot is neither the first nor the last
character; otherwise the empty string. -/
def pySuffix (name : List Char) : List Char :=
  match rfindDot name with
  | some i => if 0 < i ∧ i < name.length - 1 then name.drop i else []
  | none => []

/-- `get_ext(path)`: `path.suffix.lstrip(".").lower()`. -/
def get_ext (name : List Char) : List Char :=
  ((pySuffix name).dropWhile (fun c => c = '.')).map Char.toLower

/-- `str.replace(old, "")` with the usual left-to-right non-overlapping
scan, written with explicit fuel (one unit per character examined, so
`s.length` units always suffice). -/
def removeOccAux (old : List Char) : Nat → List Char → List Char
  | 0, s => s
  | _ + 1, [] => []
  | fuel + 1, c :: cs =>
    if old ≠ [] ∧ old.isPrefixOf (c :: cs) then
      removeOccAux old fuel ((c :: cs).drop old.length)
    else
      c :: removeOccAux old fuel cs

/-- `str.replace(old, "")`: delete every (left-to-right, non-overlapping)
occurrence of `old`. -/
def removeOcc (old s : List Char) : List Char :=
  removeOccAux old s.length s

/-- `get_basename_wo_ext(path)` acting on the filename component:
`path.name.replace("." + get_ext(path), "")`. -/
def get_basename_wo_ext (name : List Char) : List Char :=
  removeOcc ('.' :: get_ext name) name

/-! ## Embedding of `src/font.py`, class `FontData` -/

def MAGIC_NUM : Nat := 0x34234291
def CONSTANT_1 : Nat := 0x68796374
def CONSTANT_2 : Nat := 0x687969bb

/-- `FontData._calc_hash`: fold `hash * 0x21 + byte` over the bytes
starting from `0x1505`, masking with `0xffffffff` once, after the loop. -/
def calc_hash (data_bytes : List Nat) : Nat :=
  (data_bytes.foldl (fun hash byte => hash * 0x21 + byte) 0x1505) % 2 ^ 32

/-- The hash as the specification states it: the 32-bit reduction is
applied at every step of the fold. -/
def hash_spec (data_bytes : List Nat) : Nat :=
  data_bytes.foldl (fun hash byte => (hash * 0x21 + byte) % 2 ^ 32) 0x1505

/-- `struct.pack('<I', n)` for `n < 2^32`: the four little-endian bytes. -/
def pack32le (n : Nat) : List Nat :=
  [n % 256, n / 256 % 256, n / 65536 % 256, n / 16777216 % 256]

/-- `FontData._uint32_le`: mask to 32 bits, then pack little-endian. -/
def uint32_le (n : Nat) : List Nat :=
  pack32le (n % 2 ^ 32)

/-- The data `FontData` reads from a saved font file: the UTF-8 bytes of
the best family and subfamily names and the `head` table's
`checkSumAdjustment` field. -/
structure SavedFont where
  family : List Nat
  subfamily : List Nat
  checkSumAdjustment : Nat
  deriving DecidableEq, Repr

/-- `FontData.get_font_data`: assemble the `font.dat` descriptor bytes. -/
def get_font_data (f : SavedFont) : List Nat :=
  let magic_num := pack32le MAGIC_NUM
  let name_id_1 := f.family
  let name_id_1_len := pack32le name_id_1.length
  let name_id_2 := f.subfamily
  let name_id_2_len := pack32le name_id_2.length
  let checksum_adj := f.checkSumAdjustment
  let byteswapped_checksum := pack32le checksum_adj
  let byteswapped_checksum_plus_constant := uint32_le (checksum_adj + CONSTANT_1)
  let hash_name_id_1 := calc_hash name_id_1
  let hash_name_id_2 := calc_hash name_id_2
  let combined_hash := uint32_le (hash_name_id_1 * 2 + hash_name_id_2 + CONSTANT_2)
  magic_num ++
    name_id_1_len ++ name_id_1 ++
    name_id_1_len ++ name_id_1 ++
    name_id_2_len ++ name_id_2 ++
    byteswapped_checksum ++
    byteswapped_checksum_plus_constant ++
    combined_hash ++
    name_id_1_len ++ name_id_1

/-! ## Embedding of `src/font.py`, class `FontFile`: name mutation -/

def FAMILY_ID : Nat := 1
def SUBFAM_ID : Nat := 2
def MAX_CHARS : Nat := 32
def PLATFORM_ID : Nat := 3
def PLATENC_ID : Nat := 1
def LANG_ID : Nat := 1033

/-- A record of the font's `name` table. -/
structure NameRecord where
  nameID : Nat
  platformID : Nat
  platEncID : Nat
  langID : Nat
  string : List Char
  deriving DecidableEq, Repr

/-- The identifying quadruple of a name record. -/
def NameRecord.key (r : NameRecord) : Nat × Nat × Nat × Nat :=
  (r.nameID, r.platformID, r.platEncID, r.langID)

/-- fontTools `NameTable.setName`: replace the string of the first record
matching all four ids, or append a new record when none matches. -/
def setName (table : List NameRecord) (s : List Char)
    (nameID platformID platEncID langID : Nat) : List NameRecord :=
  match table with
  | [] => [⟨nameID, platformID, platEncID, langID, s⟩]
  | r :: rs =>
      if r.key = (nameID, platformID, platEncID, langID) then
        { r with string := s } :: rs
      else
        r :: setName rs s nameID platformID platEncID langID

/-- `FontFile._locate_name_recs`. -/
def locate_name_recs (table : List NameRecord) (name_id : Nat) : List NameRecord :=
  table.filter (fun rec => rec.nameID == name_id)

/-- `FontFile._setName`: if no record was located, synthesize one under
the fixed (Windows, Unicode BMP, English) triple from the sanitised,
cropped source filename; otherwise rewrite each located record from its
own prior value under its own triple. -/
def set_name_op (font_file_name : List Char) (table records : List NameRecord)
    (id : Nat) : List NameRecord :=
  if records = [] then
    setName table ((sanitise_alphanum font_file_name [' ']).take MAX_CHARS)
      id PLATFORM_ID PLATENC_ID LANG_ID
  else
    records.foldl
      (fun t old_record =>
        setName t ((sanitise_alphanum old_record.string [' ']).take MAX_CHARS)
          old_record.nameID old_record.platformID old_record.platEncID
          old_record.langID)
      table

/-- `FontFile.sanitise_name`: locate the family and subfamily records in
the current table, then apply `_setName` for each role in turn. -/
def sanitise_name (table : List NameRecord) (font_file_name : List Char) :
    List NameRecord :=
  let family_records := locate_name_recs table FAMILY_ID
  let subfamily_records := locate_name_recs table SUBFAM_ID
  set_name_op font_file_name
    (set_name_op font_file_name table family_records FAMILY_ID)
    subfamily_records SUBFAM_ID

/-- The specification's description of one role's pass: if no record for
the role exists, append exactly one synthesized record under the fixed
triple; otherwise replace every record of the role, in place, by the
sanitised 32-character-cropped form of its own prior value. -/
def sanitiseRoleSpec (role : Nat) (font_file_name : List Char)
    (t : List NameRecord) : List NameRecord :=
  if t.filter (fun rec => rec.nameID == role) = [] then
    t ++ [⟨role, 3, 1, 1033, (sanitise_alphanum font_file_name [' ']).take 32⟩]
  else
    t.map (fun r =>
      if r.nameID == role then
        { r with string := (sanitise_alphanum r.string [' ']).take 32 }
      else r)

/-- The name table's records carry pairwise-distinct identifying
quadruples (true of well-formed name tables). -/
abbrev keysNodup (t : List NameRecord) : Prop :=
  (t.map NameRecord.key).Nodup

/-! ## Embedding of `src/font.py`, class `FontFile`: name resolution -/

/-- The parts of a `FontFile` that name resolution reads: the name
table's best family/subfamily names (`None` when the table yields no
candidate for the role) and the stored source filename. -/
structure FontFileModel where
  bestFamilyName : Option (List Char)
  bestSubFamilyName : Option (List Char)
  font_file_name : List Char
  deriving DecidableEq, Repr

/-- `FontFile.__init__`: `font_file_name` is `get_basename_wo_ext(path)`. -/
def mkFontFile (path_name : List Char) (fam sub : Option (List Char)) :
    FontFileModel :=
  ⟨fam, sub, get_basename_wo_ext path_name⟩

/-- `FontFile._get_name`: the name from the font if present, otherwise
the sanitised (alphanumeric plus space) source filename. -/
def get_name (ff : FontFileModel) (from_font : Option (List Char)) : List Char :=
  let sanitised_file_name := sanitise_alphanum ff.font_file_name [' ']
  match from_font with
  | some n => n
  | none => sanitised_file_name

/-- `FontFile.get_family`. -/
def get_family (ff : FontFileModel) : List Char :=
  get_name ff ff.bestFamilyName

/-- `FontFile.get_subfamily`. -/
def get_subfamily (ff : FontFileModel) : List Char :=
  get_name ff ff.bestSubFamilyName

/-- `FontFile.get_combined_name`. -/
def get_combined_name (ff : FontFileModel) (sep : List Char) : List Char :=
  let family := get_family ff
  let subfam := get_subfamily ff
  if family = subfam then family
  else family ++ sep ++ subfam

/-! ## Embedding of `src/font.py`, class `FontFile`: subsetting

`subset_font` drives the third-party fontTools subsetter; the subsetter
itself is modelled here from its documented behaviour: `populate` requests
glyphs both from the Unicode code points (through the Unicode-flagged cmap
subtables) and from explicitly named glyphs, `subset` retains the glyph
closure of everything requested, tables listed in `no_subset_tables` are
passed through untouched, hinting tables are dropped when hinting is off,
and tables the subsetter does not know are dropped unless passed through.
-/

/-- One `cmap` subtable: its Unicode flag (`t.isUnicode()`) and its
codepoint-to-glyph-name mapping. -/
structure CmapSubtable where
  is_unicode : Bool
  cmap : List (Nat × String)
  deriving DecidableEq, Repr

/-- The parts of a `TTFont` that subsetting reads and writes:
the cmap subtables, the glyph order, the glyph dependency edges (composite
glyph components and the like, which glyph closure follows) and the tags of
the tables present. -/
structure TTFont where
  cmap_tables : List CmapSubtable
  glyph_order : List String
  glyph_deps : String → List String
  tables : List String

/-- `FontFile._character_set`: the keys of every Unicode-flagged cmap
subtable, concatenated in table order. -/
def character_set (f : TTFont) : List Nat :=
  ((f.cmap_tables.filter (fun t => t.is_unicode)).map
    (fun t => t.cmap.map (fun p => p.1))).flatten

/-- The fontTools `subset.Options` fields this program sets. -/
structure SubsetOptions where
  layout_features : List String
  no_subset_tables : List String
  hinting : Bool
  deriving DecidableEq, Repr

/-- The fontTools default value of `Options.no_subset_tables`. -/
def no_subset_tables_default : List String :=
  ["avar", "fvar", "gasp", "head", "hhea", "maxp", "vhea", "OS/2", "loca",
   "name", "cvt ", "fpgm", "prep", "VDMX", "DSIG", "MVAR", "cvar", "STAT"]

/-- Hinting-related tables, dropped when `options.hinting` is off. -/
def hinting_tables : List String := ["cvar", "cvt ", "fpgm", "prep", "gasp"]

/-- Tables the subsetter knows how to subset. -/
def subsettable_tags : List String :=
  ["glyf", "loca", "hmtx", "hhea", "head", "maxp", "name", "cmap", "post",
   "OS/2", "GSUB", "GPOS", "GDEF", "kern"]

/-- Whether the subsetter keeps a table: passed-through tables are kept,
hinting tables go when hinting is off, known tables are kept (reduced),
unknown tables are dropped. -/
def keep_table (opts : SubsetOptions) (tag : String) : Bool :=
  if opts.no_subset_tables.contains tag then true
  else if hinting_tables.contains tag && !opts.hinting then false
  else subsettable_tags.contains tag

/-- One glyph-closure step: add every dependency of the current glyph set
that exists in the font. -/
def closure_step (f : TTFont) (s : List String) : List String :=
  s ++ ((s.map f.glyph_deps).flatten).filter (fun g => f.glyph_order.contains g)

def closure_iter (f : TTFont) : Nat → List String → List String
  | 0, s => s
  | n + 1, s => closure_iter f n (closure_step f s)

/-- The glyph closure of a starting set: iterating dependency expansion
`|glyph_order|` times reaches every glyph reachable from the start. -/
def glyph_closure (f : TTFont) (start : List String) : List String :=
  closure_iter f f.glyph_order.length start

/-- The glyphs the Unicode-flagged cmap subtables map the requested code
points to (`populate(unicodes=...)`). -/
def glyphs_of_unicodes (f : TTFont) (unicodes : List Nat) : List String :=
  ((f.cmap_tables.filter (fun t => t.is_unicode)).map
    (fun t => (t.cmap.filter (fun p => unicodes.contains p.1)).map
      (fun p => p.2))).flatten

/-- `Subsetter.populate(unicodes=..., glyphs=...)` followed by
`subsetter.subset(font)`: retain the glyph closure of the glyphs mapped
from the requested unicodes together with the requested glyph names, and
keep tables per `keep_table`. -/
def subsetter_subset (opts : SubsetOptions) (f : TTFont)
    (unicodes : List Nat) (glyphs : List String) : TTFont :=
  { f with
      glyph_order := glyph_closure f (glyphs_of_unicodes f unicodes ++ glyphs)
      tables := f.tables.filter (keep_table opts) }

/-- `FontFile.subset_font`: build options with all layout features, the
default `no_subset_tables` plus `"FFTM"` and hinting off; populate with
the character set and with the font's entire glyph order; subset.
Returns the subset font and the options used. -/
def subset_font (f : TTFont) : TTFont × SubsetOptions :=
  let subset_options : SubsetOptions :=
    { layout_features := ["*"]
      no_subset_tables := no_subset_tables_default ++ ["FFTM"]
      hinting := false }
  (subsetter_subset subset_options f (character_set f) f.glyph_order,
   subset_options)

/-- The concrete font of the claim: character map containing exactly
`{0x41, 0x42}`, and a third glyph `"C"` unreachable from them. -/
def fontABC : TTFont :=
  { cmap_tables := [⟨true, [(0x41, "A"), (0x42, "B")]⟩]
    glyph_order := ["A", "B", "C"]
    glyph_deps := fun _ => []
    tables := ["glyf", "FFTM"] }

/-! ## Embedding of `src/build_files.py`, class `FontAPK` -/

/-- The observable state of a `FontAPK`: the five `compile_reqs` flags,
the contents of the written asset files, and — for stating that the
descriptor never reuses it — the collaborator's pre-save in-memory font
object with its stale checksum. -/
structure APKState where
  font_data_flag : Bool
  font_xml_flag : Bool
  font_ttf_flag : Bool
  manifest_flag : Bool
  strings_flag : Bool
  saved_font_ttf : Option SavedFont
  font_dat_file : Option (List Nat)
  in_memory_font : Option SavedFont
  deriving DecidableEq, Repr

/-- `FontAPK.set_font_ttf`: save the font to `assets/font.ttf` (the save
re-serialises and recomputes the checksum, producing `saved`), then set
the `font_ttf` flag. -/
def set_font_ttf (st : APKState) (saved : SavedFont) : APKState :=
  { st with saved_font_ttf := some saved, font_ttf_flag := true }

/-- `FontAPK.set_font_data`: raise unless the `font_ttf` flag is set;
otherwise construct a fresh `FontData` from the written `font.ttf` path
(raising if no saved font is there to parse), write its descriptor bytes
to `assets/font.dat`, and set the `font_data` flag after the write. -/
def set_font_data (st : APKState) : Except String APKState :=
  if st.font_ttf_flag = false then
    .error "font_ttf needs to be set before calling set_font_data"
  else
    match st.saved_font_ttf with
    | none => .error "Could not locate head table in font"
    | some f =>
        .ok { st with
                font_dat_file := some (get_font_data f),
                font_data_flag := true }

/-! ## Helper lemmas -/

theorem foldl_hash_mod (l : List Nat) (a : Nat) :
    (l.foldl (fun hash byte => hash * 0x21 + byte) a) % 2 ^ 32 =
      l.foldl (fun hash byte => (hash * 0x21 + byte) % 2 ^ 32) (a % 2 ^ 32) := by
  induction l generalizing a with
  | nil => rfl
  | cons b l ih =>
      simp only [List.foldl_cons]
      rw [ih]
      congr 1
      omega

theorem calc_hash_eq_hash_spec (l : List Nat) : calc_hash l = hash_spec l := by
  unfold calc_hash hash_spec
  have h := foldl_hash_mod l 0x1505
  simpa using h

theorem setName_of_not_mem (t : List NameRecord) (s : List Char)
    (n p e l : Nat) (h : ∀ r ∈ t, r.key ≠ (n, p, e, l)) :
    setName t s n p e l = t ++ [⟨n, p, e, l, s⟩] := by
  induction t with
  | nil => rfl
  | cons r rs ih =>
      simp only [setName]
      rw [if_neg (h r (List.mem_cons_self r rs)),
        ih (fun x hx => h x (List.mem_cons_of_mem r hx))]
      rfl

theorem setName_of_mem (t : List NameRecord) (s : List Char) (n p e l : Nat)
    (hnd : keysNodup t) (hk : (n, p, e, l) ∈ t.map NameRecord.key) :
    setName t s n p e l =
      t.map (fun r =>
        if r.key = (n, p, e, l) then { r with string := s } else r) := by
  induction t with
  | nil => simp at hk
  | cons r rs ih =>
      have hnd' : r.key ∉ rs.map NameRecord.key ∧ (rs.map NameRecord.key).Nodup := by
        rw [keysNodup, List.map_cons, List.nodup_cons] at hnd
        exact hnd
      by_cases hr : r.key = (n, p, e, l)
      · simp only [setName, List.map_cons]
        rw [if_pos hr, if_pos hr]
        congr 1
        have hfix : ∀ x ∈ rs,
            (if x.key = (n, p, e, l) then { x with string := s } else x) = id x := by
          intro x hx
          rw [if_neg]
          · rfl
          · intro hxk
            exact hnd'.1 (hr ▸ hxk ▸ List.mem_map_of_mem NameRecord.key hx)
        rw [List.map_congr_left hfix, List.map_id]
      · have hk' : (n, p, e, l) ∈ rs.map NameRecord.key := by
          rw [List.map_cons] at hk
          rcases List.mem_cons.mp hk with h1 | h1
          · exact absurd h1.symm hr
          · exact h1
        simp only [setName, List.map_cons]
        rw [if_neg hr, if_neg hr, ih hnd'.2 hk']

theorem key_inj (t : List NameRecord) (hnd : keysNodup t)
    {a b : NameRecord} (ha : a ∈ t) (hb : b ∈ t) (hk : a.key = b.key) :
    a = b := by
  by_contra hne
  have hpw : t.Pairwise (fun x y => x.key ≠ y.key) := List.pairwise_map.mp hnd
  have hsymm : Symmetric (fun x y : NameRecord => x.key ≠ y.key) := by
    intro x y h heq
    exact h heq.symm
  exact hpw.forall hsymm ha hb hne hk

theorem foldl_setName_eq_map (f : NameRecord → List Char)
    (recs : List NameRecord) :
    ∀ t : List NameRecord, keysNodup t →
      (recs.map NameRecord.key).Nodup →
      (∀ r ∈ recs, r.key ∈ t.map NameRecord.key) →
      recs.foldl
        (fun acc r =>
          setName acc (f r) r.nameID r.platformID r.platEncID r.langID) t =
      t.map (fun x =>
        match recs.find? (fun r => decide (r.key = x.key)) with
        | some r => { x with string := f r }
        | none => x) := by
  induction recs with
  | nil =>
      intro t _ _ _
      simp [List.find?]
  | cons r recs ih =>
      intro t hnd hrnd hmem
      have hrnd' : r.key ∉ recs.map NameRecord.key ∧
          (recs.map NameRecord.key).Nodup := by
        rw [List.map_cons, List.nodup_cons] at hrnd
        exact hrnd
      have hrk : r.key ∈ t.map NameRecord.key := hmem r (List.mem_cons_self r recs)
      simp only [List.foldl_cons]
      rw [setName_of_mem t (f r) r.nameID r.platformID r.platEncID r.langID hnd hrk]
      have hgkey : ∀ x : NameRecord,
          ((if x.key = (r.nameID, r.platformID, r.platEncID, r.langID) then
              { x with string := f r } else x) : NameRecord).key = x.key := by
        intro x
        split
        · rfl
        · rfl
      have hkeys : (t.map (fun x =>
          if x.key = (r.nameID, r.platformID, r.platEncID, r.langID) then
            { x with string := f r } else x)).map NameRecord.key =
          t.map NameRecord.key := by
        rw [List.map_map]
        exact List.map_congr_left (fun x _ => hgkey x)
      rw [ih _ (by rw [keysNodup, hkeys]; exact hnd) hrnd'.2
        (fun a ha => by rw [hkeys]; exact hmem a (List.mem_cons_of_mem r ha))]
      rw [List.map_map]
      refine List.map_congr_left (fun x _ => ?_)
      by_cases hx : x.key = (r.nameID, r.platformID, r.platEncID, r.langID)
      · have hfind : recs.find? (fun a => decide (a.key = x.key)) = none := by
          refine List.find?_eq_none.mpr (fun a ha hcon => ?_)
          have hak : a.key = x.key := of_decide_eq_true hcon
          exact hrnd'.1 (by
            have : a.key = r.key := hak.trans hx
            exact this ▸ List.mem_map_of_mem NameRecord.key ha)
        have hfind2 : (r :: recs).find? (fun a => decide (a.key = x.key)) = some r :=
          List.find?_cons_of_pos _ (decide_eq_true hx.symm)
        have hkstep : ({ x with string := f r } : NameRecord).key = x.key := rfl
        simp only [Function.comp, if_pos hx, hkstep, hfind, hfind2]
      · have hfind2 : (r :: recs).find? (fun a => decide (a.key = x.key)) =
            recs.find? (fun a => decide (a.key = x.key)) :=
          List.find?_cons_of_neg _ (by
            simp only [decide_eq_true_eq]
            intro hcon
            exact hx hcon.symm)
        simp only [Function.comp, if_neg hx, hfind2]

theorem set_name_op_eq_spec (fname : List Char) (t : List NameRecord)
    (role : Nat) (hnd : keysNodup t) :
    set_name_op fname t (locate_name_recs t role) role =
      sanitiseRoleSpec role fname t := by
  by_cases hE : t.filter (fun rec => rec.nameID == role) = []
  · simp only [set_name_op, sanitiseRoleSpec, locate_name_recs]
    rw [if_pos hE, if_pos hE]
    rw [setName_of_not_mem]
    · rfl
    · intro r hr hkey
      have h1 : r.nameID = role := by
        have := congrArg Prod.fst hkey
        simpa [NameRecord.key, PLATFORM_ID, PLATENC_ID, LANG_ID] using this
      have : r ∈ t.filter (fun rec => rec.nameID == role) :=
        List.mem_filter.mpr ⟨hr, by simp [h1]⟩
      rw [hE] at this
      simp at this
  · simp only [set_name_op, sanitiseRoleSpec, locate_name_recs]
    rw [if_neg hE, if_neg hE]
    rw [foldl_setName_eq_map (fun r => (sanitise_alphanum r.string [' ']).take MAX_CHARS)
      (t.filter (fun rec => rec.nameID == role)) t hnd
      (List.Nodup.sublist (List.Sublist.map NameRecord.key (List.filter_sublist t)) hnd)
      (fun r hr => List.mem_map_of_mem NameRecord.key (List.mem_of_mem_filter hr))]
    refine List.map_congr_left (fun x hx => ?_)
    by_cases hx1 : x.nameID = role
    · have hxf : x ∈ t.filter (fun rec => rec.nameID == role) :=
        List.mem_filter.mpr ⟨hx, by simp [hx1]⟩
      cases hfind : (t.filter (fun rec => rec.nameID == role)).find?
          (fun a => decide (a.key = x.key)) with
      | none =>
          exact absurd (decide_eq_true rfl)
            (List.find?_eq_none.mp hfind x hxf)
      | some a =>
          have hpa := List.find?_some hfind
          have hak : a.key = x.key := of_decide_eq_true (by simpa using hpa)
          have hax : a = x :=
            key_inj t hnd
              (List.mem_of_mem_filter (List.mem_of_find?_eq_some hfind)) hx hak
          subst hax
          have hb : (a.nameID == role) = true := by simp [hx1]
          rw [if_pos hb]
          rfl
    · have hfind : (t.filter (fun rec => rec.nameID == role)).find?
          (fun a => decide (a.key = x.key)) = none := by
        refine List.find?_eq_none.mpr (fun a ha hcon => ?_)
        have hak : a.key = x.key := of_decide_eq_true hcon
        have haR : a.nameID = role := by
          have := (List.mem_filter.mp ha).2
          simpa using this
        have hfst : a.nameID = x.nameID := by
          have := congrArg Prod.fst hak
          simpa [NameRecord.key] using this
        exact hx1 (hfst ▸ haR)
      rw [hfind, if_neg (by simp [hx1] : ¬ (x.nameID == role) = true)]

theorem roleSpec_key (role : Nat) (x : NameRecord) :
    ((if x.nameID == role then
        { x with string := (sanitise_alphanum x.string [' ']).take 32 }
      else x) : NameRecord).key = x.key := by
  split
  · rfl
  · rfl

theorem filter_map_roleFun (role other : Nat) (hne : role ≠ other)
    (t : List NameRecord) :
    (t.map (fun r =>
      if r.nameID == role then
        { r with string := (sanitise_alphanum r.string [' ']).take 32 }
      else r)).filter (fun rec => rec.nameID == other) =
      t.filter (fun rec => rec.nameID == other) := by
  induction t with
  | nil => rfl
  | cons r rs ih =>
      by_cases hr : r.nameID = role
      · have hb : (r.nameID == role) = true := by simp [hr]
        rw [List.map_cons, if_pos hb,
          List.filter_cons_of_neg (by simp [hr, hne]),
          List.filter_cons_of_neg (by simp [hr, hne])]
        exact ih
      · have hb : ¬ ((r.nameID == role) = true) := by simp [hr]
        rw [List.map_cons, if_neg hb]
        by_cases ho : r.nameID = other
        · rw [List.filter_cons_of_pos (by simp [ho]),
            List.filter_cons_of_pos (by simp [ho]), ih]
        · rw [List.filter_cons_of_neg (by simp [ho]),
            List.filter_cons_of_neg (by simp [ho])]
          exact ih

theorem filter_sanitiseRoleSpec_ne (role other : Nat) (hne : role ≠ other)
    (fname : List Char) (t : List NameRecord) :
    locate_name_recs (sanitiseRoleSpec role fname t) other =
      locate_name_recs t other := by
  unfold sanitiseRoleSpec locate_name_recs
  split
  · rw [List.filter_append]
    have hsing : (([⟨role, 3, 1, 1033, (sanitise_alphanum fname [' ']).take 32⟩] :
        List NameRecord).filter (fun rec => rec.nameID == other)) = [] := by
      simp [hne]
    rw [hsing, List.append_nil]
  · exact filter_map_roleFun role other hne t

theorem keysNodup_sanitiseRoleSpec (role : Nat) (fname : List Char)
    (t : List NameRecord) (hnd : keysNodup t) :
    keysNodup (sanitiseRoleSpec role fname t) := by
  unfold sanitiseRoleSpec
  split
  · next hE =>
      rw [keysNodup, List.map_append]
      refine List.Nodup.append hnd (List.nodup_singleton _) ?_
      intro k hk1 hk2
      simp only [List.map_cons, List.map_nil, List.mem_singleton] at hk2
      obtain ⟨r, hr, hkey⟩ := List.mem_map.mp hk1
      have h1 : r.nameID = role := by
        have := congrArg Prod.fst (hkey.trans hk2)
        simpa [NameRecord.key] using this
      have hmem : r ∈ t.filter (fun rec => rec.nameID == role) :=
        List.mem_filter.mpr ⟨hr, by simp [h1]⟩
      rw [hE] at hmem
      simp at hmem
  · rw [keysNodup, List.map_map]
    have h : (NameRecord.key ∘ fun r =>
        if r.nameID == role then
          { r with string := (sanitise_alphanum r.string [' ']).take 32 }
        else r) = NameRecord.key := by
      funext x
      simp only [Function.comp]
      exact roleSpec_key role x
    rw [h]
    exact hnd

theorem sanitise_name_eq_spec (t : List NameRecord) (fname : List Char)
    (hnd : keysNodup t) :
    sanitise_name t fname =
      sanitiseRoleSpec SUBFAM_ID fname (sanitiseRoleSpec FAMILY_ID fname t) := by
  simp only [sanitise_name]
  rw [set_name_op_eq_spec fname t FAMILY_ID hnd]
  rw [← filter_sanitiseRoleSpec_ne FAMILY_ID SUBFAM_ID (by decide) fname t]
  exact set_name_op_eq_spec fname _ SUBFAM_ID
    (keysNodup_sanitiseRoleSpec FAMILY_ID fname t hnd)

theorem mem_sanitiseRoleSpec_cases {r' : NameRecord} {role : Nat}
    {fname : List Char} {u : List NameRecord}
    (h : r' ∈ sanitiseRoleSpec role fname u) :
    (r'.nameID = role ∧ r'.string.length ≤ 32) ∨
      (r' ∈ u ∧ r'.nameID ≠ role) := by
  unfold sanitiseRoleSpec at h
  by_cases hE : u.filter (fun rec => rec.nameID == role) = []
  · rw [if_pos hE] at h
    rcases List.mem_append.mp h with h1 | h1
    · right
      refine ⟨h1, fun hr => ?_⟩
      have hmem : r' ∈ u.filter (fun rec => rec.nameID == role) :=
        List.mem_filter.mpr ⟨h1, by simp [hr]⟩
      rw [hE] at hmem
      simp at hmem
    · left
      have hr : r' = ⟨role, 3, 1, 1033,
          (sanitise_alphanum fname [' ']).take 32⟩ := by
        simpa using h1
      subst hr
      refine ⟨rfl, ?_⟩
      rw [List.length_take]
      exact min_le_left _ _
  · rw [if_neg hE] at h
    obtain ⟨x, hxu, hxe⟩ := List.mem_map.mp h
    by_cases hx : x.nameID = role
    · left
      have hb : (x.nameID == role) = true := by simp [hx]
      rw [← hxe, if_pos hb]
      refine ⟨hx, ?_⟩
      rw [List.length_take]
      exact min_le_left _ _
    · right
      rw [← hxe, if_neg (by simp [hx])]
      exact ⟨hxu, hx⟩

theorem persist_sanitiseRoleSpec {x : NameRecord} {role : Nat}
    {fname : List Char} {u : List NameRecord}
    (hxu : x ∈ u) (hx : x.nameID ≠ role) :
    x ∈ sanitiseRoleSpec role fname u := by
  unfold sanitiseRoleSpec
  split
  · exact List.mem_append_left _ hxu
  · refine List.mem_map.mpr ⟨x, hxu, ?_⟩
    rw [if_neg (by simp [hx])]

theorem update_mem_sanitiseRoleSpec {x : NameRecord} {role : Nat}
    {fname : List Char} {u : List NameRecord}
    (hxu : x ∈ u) (hx : x.nameID = role) :
    ({ x with string := (sanitise_alphanum x.string [' ']).take 32 } : NameRecord) ∈
      sanitiseRoleSpec role fname u := by
  unfold sanitiseRoleSpec
  split
  · next hE =>
      exfalso
      have hmem : x ∈ u.filter (fun rec => rec.nameID == role) :=
        List.mem_filter.mpr ⟨hxu, by simp [hx]⟩
      rw [hE] at hmem
      simp at hmem
  · refine List.mem_map.mpr ⟨x, hxu, ?_⟩
    rw [if_pos (by simp [hx] : (x.nameID == role) = true)]

/-- C4: the descriptor hash equals the fold that starts from `0x1505` and
reduces `hash * 0x21 + byte` modulo `2^32` at every step; in particular
the hash of `b""` is `0x1505`, the hash of `b"A"` is
`(0x1505 * 0x21 + 65) % 2^32`, and masking once after the loop agrees
with reducing at every step. -/
theorem calc_hash_spec (data_bytes : List Nat) :
    calc_hash data_bytes = hash_spec data_bytes ∧
    calc_hash [] = 0x1505 ∧
    calc_hash [65] = (0x1505 * 0x21 + 65) % 2 ^ 32 := by
  refine ⟨calc_hash_eq_hash_spec data_bytes, by decide, by decide⟩

/-- C6: `sanitise_alphanum` keeps exactly the characters that are
alphanumeric or in the allow-list, preserving relative order (it yields a
sublist); it is idempotent; it never introduces a character absent from
the input; and it returns the empty string when no character of the input
is permitted. -/
theorem sanitise_alphanum_spec (s extra : List Char) :
    sanitise_alphanum (sanitise_alphanum s extra) extra = sanitise_alphanum s extra ∧
    (sanitise_alphanum s extra).Sublist s ∧
    (∀ c ∈ sanitise_alphanum s extra,
      (c.isAlphanum || extra.contains c) = true ∧ c ∈ s) ∧
    (∀ c ∈ s, (c.isAlphanum || extra.contains c) = true →
      c ∈ sanitise_alphanum s extra) ∧
    ((∀ c ∈ s, (c.isAlphanum || extra.contains c) = false) →
      sanitise_alphanum s extra = []) := by
  unfold sanitise_alphanum
  refine ⟨?_, List.filter_sublist s, ?_, ?_, ?_⟩
  · exact List.filter_eq_self.mpr (fun c hc => (List.mem_filter.mp hc).2)
  · intro c hc
    exact ⟨(List.mem_filter.mp hc).2, (List.mem_filter.mp hc).1⟩
  · intro c hc hp
    exact List.mem_filter.mpr ⟨hc, hp⟩
  · intro h
    refine List.filter_eq_nil_iff.mpr (fun c hc hcon => ?_)
    rw [h c hc] at hcon
    cases hcon

/-- Witness for `sanitise_alphanum_spec` at a concrete input, discharging
the hypotheses of its conditional conjuncts. -/
theorem sanitise_alphanum_spec_witness :
    'F' ∈ sanitise_alphanum "a Font!".data [' '] ∧
    sanitise_alphanum "!!?".data [' '] = [] := by
  have h1 := sanitise_alphanum_spec "a Font!".data [' ']
  have h2 := sanitise_alphanum_spec "!!?".data [' ']
  exact ⟨h1.2.2.2.1 'F' (by decide) (by decide), h2.2.2.2.2 (by decide)⟩

/-- C2: `get_font_data` is exactly the concatenation, in order, of the
little-endian magic constant, three copies of the family length/bytes
pair interleaved per the fixed layout, the subfamily length/bytes pair,
the raw checksum, the checksum plus `0x68796374` mod `2^32`, and
`hash(family) * 2 + hash(subfamily) + 0x687969bb` mod `2^32`; it is fully
determined by the (family, subfamily, checksum) triple, so encoding the
same triple twice gives byte-identical output. -/
theorem get_font_data_spec (f g : SavedFont)
    (hcs : f.checkSumAdjustment < 2 ^ 32) :
    get_font_data f =
      pack32le 0x34234291 ++
        pack32le f.family.length ++ f.family ++
        pack32le f.family.length ++ f.family ++
        pack32le f.subfamily.length ++ f.subfamily ++
        pack32le f.checkSumAdjustment ++
        pack32le ((f.checkSumAdjustment + 0x68796374) % 2 ^ 32) ++
        pack32le ((hash_spec f.family * 2 + hash_spec f.subfamily + 0x687969bb) % 2 ^ 32) ++
        pack32le f.family.length ++ f.family ∧
    (f.family = g.family → f.subfamily = g.subfamily →
      f.checkSumAdjustment = g.checkSumAdjustment →
      get_font_data f = get_font_data g) := by
  constructor
  · simp only [get_font_data, uint32_le, MAGIC_NUM, CONSTANT_1, CONSTANT_2,
      calc_hash_eq_hash_spec]
  · intro h1 h2 h3
    unfold get_font_data
    rw [h1, h2, h3]

/-- Witness for `get_font_data_spec` at a concrete saved font. -/
theorem get_font_data_spec_witness :
    get_font_data ⟨[65], [66], 7⟩ =
      pack32le 0x34234291 ++
        pack32le 1 ++ [65] ++ pack32le 1 ++ [65] ++
        pack32le 1 ++ [66] ++
        pack32le 7 ++
        pack32le ((7 + 0x68796374) % 2 ^ 32) ++
        pack32le ((hash_spec [65] * 2 + hash_spec [66] + 0x687969bb) % 2 ^ 32) ++
        pack32le 1 ++ [65] := by
  have h := get_font_data_spec ⟨[65], [66], 7⟩ ⟨[65], [66], 7⟩ (by decide)
  exact h.1

/-- C9: `get_basename_wo_ext` lowercases the suffix before removing it
and removes every occurrence of `"." + lowercased-suffix` from the
filename; consequently for `"Font.TTF"`, whose extension is uppercase,
the removal misses and the returned base name still contains the
extension text — which then flows into the resolver's fallback name. -/
theorem get_basename_wo_ext_spec :
    (∀ name : List Char,
      get_basename_wo_ext name =
        removeOcc ('.' :: ((pySuffix name).dropWhile (fun c => c = '.')).map Char.toLower)
          name) ∧
    get_ext "Font.TTF".data = "ttf".data ∧
    get_basename_wo_ext "Font.TTF".data = "Font.TTF".data ∧
    get_basename_wo_ext "a.ttf.ttf".data = "a".data ∧
    get_family (mkFontFile "Font.TTF".data none none) = "FontTTF".data := by
  refine ⟨fun name => rfl, by decide, by decide, by decide, by decide⟩

/-- C7: `get_family` and `get_subfamily` are total; when the name table
yields no best name for the role they return the sanitised source
filename (extension already stripped by `get_basename_wo_ext`), with
spaces preserved by the allow-list and no length cap applied (the result
is the full sanitised filename). -/
theorem get_name_fallback_spec (path_name : List Char)
    (fam sub : Option (List Char)) :
    (fam = none → get_family (mkFontFile path_name fam sub) =
      sanitise_alphanum (get_basename_wo_ext path_name) [' ']) ∧
    (sub = none → get_subfamily (mkFontFile path_name fam sub) =
      sanitise_alphanum (get_basename_wo_ext path_name) [' ']) ∧
    (∀ s, fam = some s → get_family (mkFontFile path_name fam sub) = s) ∧
    (∀ s, sub = some s → get_subfamily (mkFontFile path_name fam sub) = s) := by
  refine ⟨?_, ?_, ?_, ?_⟩
  · intro h; subst h; rfl
  · intro h; subst h; rfl
  · intro s h; subst h; rfl
  · intro s h; subst h; rfl

/-- Witness for `get_name_fallback_spec`: a 40-character filename with no
name records resolves to the full 40-character sanitised name — longer
than 32, so no length cap is applied. -/
theorem get_name_fallback_spec_witness :
    get_family (mkFontFile "AAAAAAAAAAAAAAAAAAAAAAAAAAAAAAAAAAAAAAAA.ttf".data none none) =
      "AAAAAAAAAAAAAAAAAAAAAAAAAAAAAAAAAAAAAAAA".data ∧
    32 < (get_family
      (mkFontFile "AAAAAAAAAAAAAAAAAAAAAAAAAAAAAAAAAAAAAAAA.ttf".data none none)).length := by
  have h := get_name_fallback_spec "AAAAAAAAAAAAAAAAAAAAAAAAAAAAAAAAAAAAAAAA.ttf".data
    none none
  refine ⟨?_, ?_⟩
  · rw [h.1 rfl]; decide
  · rw [h.1 rfl]; decide

/-- C10 counterexample: with family = subfamily = `"ab"` and separator
`"a"`, the two resolved names coincide, yet the separator string does
occur inside the combined name (it is a substring of the family name
itself), so "the separator never appears in the result when the two
names coincide" is false as stated. -/
theorem get_combined_name_sep_counterexample :
    get_family (FontFileModel.mk (some "ab".data) (some "ab".data) []) =
      get_subfamily (FontFileModel.mk (some "ab".data) (some "ab".data) []) ∧
    get_combined_name (FontFileModel.mk (some "ab".data) (some "ab".data) []) "a".data =
      "ab".data ∧
    ∃ pre post : List Char,
      pre ++ "a".data ++ post =
        get_combined_name (FontFileModel.mk (some "ab".data) (some "ab".data) []) "a".data := by
  refine ⟨by decide, by decide, [], ['b'], by decide⟩

/-- C10 (amended): `get_combined_name` returns the resolved family name
alone when the resolved family and subfamily coincide — the separator is
not inserted, though it may still occur as a substring already present in
the family name — and `family ++ sep ++ subfamily` otherwise. -/
theorem get_combined_name_spec (ff : FontFileModel) (sep : List Char) :
    (get_family ff = get_subfamily ff → get_combined_name ff sep = get_family ff) ∧
    (get_family ff ≠ get_subfamily ff →
      get_combined_name ff sep = get_family ff ++ sep ++ get_subfamily ff) := by
  constructor
  · intro h
    simp [get_combined_name, h]
  · intro h
    simp [get_combined_name, h]

/-- Witness for `get_combined_name_spec` at concrete fonts, exercising
both the coinciding and the differing branch. -/
theorem get_combined_name_spec_witness :
    get_combined_name (FontFileModel.mk (some "ab".data) (some "ab".data) []) "-".data =
      "ab".data ∧
    get_combined_name (FontFileModel.mk (some "a".data) (some "b".data) []) "-".data =
      "a-b".data := by
  have h1 := get_combined_name_spec
    (FontFileModel.mk (some "ab".data) (some "ab".data) []) "-".data
  have h2 := get_combined_name_spec
    (FontFileModel.mk (some "a".data) (some "b".data) []) "-".data
  refine ⟨?_, ?_⟩
  · rw [h1.1 (by decide)]; decide
  · rw [h2.2 (by decide)]; decide

/-- C8: the descriptor write is gated on the font write: `set_font_data`
raises when the `font_ttf` flag is false (so no flag or file changes);
when it runs it builds a fresh `FontData` from the saved `font.ttf` file
— its output is a function of the saved file only and ignores the
pre-save in-memory font — and each of `font_ttf` and `font_data` becomes
true only together with its completed write. -/
theorem set_font_data_spec (st : APKState) (f : SavedFont) :
    (st.font_ttf_flag = false →
      set_font_data st = .error "font_ttf needs to be set before calling set_font_data") ∧
    (st.font_ttf_flag = true → st.saved_font_ttf = some f →
      set_font_data st = .ok { st with
        font_dat_file := some (get_font_data f),
        font_data_flag := true }) ∧
    (∀ g, set_font_data { st with in_memory_font := g } =
      (set_font_data st).map (fun s => { s with in_memory_font := g })) ∧
    (set_font_ttf st f).font_ttf_flag = true ∧
    (set_font_ttf st f).saved_font_ttf = some f ∧
    (set_font_ttf st f).font_data_flag = st.font_data_flag := by
  refine ⟨?_, ?_, ?_, rfl, rfl, rfl⟩
  · intro h
    simp [set_font_data, h]
  · intro h hf
    simp [set_font_data, h, hf]
  · intro g
    cases hflag : st.font_ttf_flag with
    | false => simp [set_font_data, hflag, Except.map]
    | true =>
        cases hsf : st.saved_font_ttf with
        | none => simp [set_font_data, hflag, hsf, Except.map]
        | some f' => simp [set_font_data, hflag, hsf, Except.map]

/-- Witness for `set_font_data_spec`: on a state whose `font_ttf` flag is
set and whose saved font is concrete, the descriptor is written and the
`font_data` flag becomes true. -/
theorem set_font_data_spec_witness :
    set_font_data (APKState.mk false false true false false
        (some ⟨[65], [66], 7⟩) none none) =
      .ok (APKState.mk true false true false false
        (some ⟨[65], [66], 7⟩) (some (get_font_data ⟨[65], [66], 7⟩)) none) := by
  have h := set_font_data_spec
    (APKState.mk false false true false false (some ⟨[65], [66], 7⟩) none none)
    ⟨[65], [66], 7⟩
  exact h.2.1 rfl rfl

/-- C5: for a name table with pairwise-distinct record keys,
`sanitise_name` acts on each role (family 1, then subfamily 2) exactly as
the specification describes: if no record of the role exists, exactly one
record is appended under the fixed (3, 1, 1033) triple with the
sanitised, 32-cropped source filename as its value; otherwise every
record of the role is replaced in place by the sanitised, 32-cropped form
of its own prior value under its own triple, with no record deleted or
merged; every role record ends with at most 32 characters, every prior
role record survives (with its own key) in sanitised form, and a value
whose sanitised form exceeds 32 characters ends with length exactly 32. -/
theorem sanitise_name_role_spec (t : List NameRecord) (fname : List Char)
    (hnd : keysNodup t) :
    sanitise_name t fname =
      sanitiseRoleSpec SUBFAM_ID fname (sanitiseRoleSpec FAMILY_ID fname t) ∧
    (∀ r' ∈ sanitise_name t fname,
      r'.nameID = FAMILY_ID ∨ r'.nameID = SUBFAM_ID → r'.string.length ≤ 32) ∧
    (∀ r ∈ t, r.nameID = FAMILY_ID ∨ r.nameID = SUBFAM_ID →
      ({ r with string := (sanitise_alphanum r.string [' ']).take 32 } :
        NameRecord) ∈ sanitise_name t fname) ∧
    (∀ r ∈ t, r.nameID = FAMILY_ID ∨ r.nameID = SUBFAM_ID →
      32 < (sanitise_alphanum r.string [' ']).length →
      ∃ r' ∈ sanitise_name t fname, r'.key = r.key ∧ r'.string.length = 32) := by
  have heq := sanitise_name_eq_spec t fname hnd
  have hmem3 : ∀ r ∈ t, r.nameID = FAMILY_ID ∨ r.nameID = SUBFAM_ID →
      ({ r with string := (sanitise_alphanum r.string [' ']).take 32 } :
        NameRecord) ∈ sanitise_name t fname := by
    intro r hr hrole
    rw [heq]
    rcases hrole with h | h
    · have h1 := @update_mem_sanitiseRoleSpec r FAMILY_ID fname t hr h
      exact persist_sanitiseRoleSpec h1
        (by simp [h, FAMILY_ID, SUBFAM_ID])
    · have h1 : r ∈ sanitiseRoleSpec FAMILY_ID fname t :=
        persist_sanitiseRoleSpec hr (by simp [h, FAMILY_ID, SUBFAM_ID])
      exact update_mem_sanitiseRoleSpec h1 h
  refine ⟨heq, ?_, hmem3, ?_⟩
  · intro r' hr' hrole
    rw [heq] at hr'
    rcases mem_sanitiseRoleSpec_cases hr' with ⟨_, h2⟩ | ⟨h1, h2⟩
    · exact h2
    · rcases mem_sanitiseRoleSpec_cases h1 with ⟨_, h4⟩ | ⟨_, h4⟩
      · exact h4
      · rcases hrole with h | h
        · exact absurd h h4
        · exact absurd h h2
  · intro r hr hrole hlen
    refine ⟨{ r with string := (sanitise_alphanum r.string [' ']).take 32 },
      hmem3 r hr hrole, rfl, ?_⟩
    simp only [List.length_take]
    omega

/-- Witness for `sanitise_name_role_spec` at a concrete table containing
a subfamily record whose sanitised value has 50 characters: the table has
distinct keys, the role characterisation holds, and the mutated record's
value has length exactly 32. -/
theorem sanitise_name_role_spec_witness :
    sanitise_name
        [⟨2, 3, 1, 1033, "AAAAAAAAAAAAAAAAAAAAAAAAAAAAAAAAAAAAAAAAAAAAAAAAAA".data⟩]
        "f".data =
      sanitiseRoleSpec SUBFAM_ID "f".data
        (sanitiseRoleSpec FAMILY_ID "f".data
          [⟨2, 3, 1, 1033, "AAAAAAAAAAAAAAAAAAAAAAAAAAAAAAAAAAAAAAAAAAAAAAAAAA".data⟩]) ∧
    ∃ r' ∈ sanitise_name
        [⟨2, 3, 1, 1033, "AAAAAAAAAAAAAAAAAAAAAAAAAAAAAAAAAAAAAAAAAAAAAAAAAA".data⟩]
        "f".data,
      r'.key = ((⟨2, 3, 1, 1033,
          "AAAAAAAAAAAAAAAAAAAAAAAAAAAAAAAAAAAAAAAAAAAAAAAAAA".data⟩ :
        NameRecord)).key ∧ r'.string.length = 32 := by
  have h := sanitise_name_role_spec
    [⟨2, 3, 1, 1033, "AAAAAAAAAAAAAAAAAAAAAAAAAAAAAAAAAAAAAAAAAAAAAAAAAA".data⟩]
    "f".data (by decide)
  refine ⟨h.1, h.2.2.2 _ (by decide) (Or.inr rfl) (by decide)⟩

/-- C3 counterexample: with no existing name records and source filename
`"My Font!!.ttf"`, the synthesized family and subfamily record values are
`"My Font"` — the space survives the allow-list — and no record's value
is `"MyFont"` as the claim states. -/
theorem sanitise_name_myfont_counterexample :
    sanitise_name [] (get_basename_wo_ext "My Font!!.ttf".data) =
      [⟨FAMILY_ID, 3, 1, 1033, "My Font".data⟩,
       ⟨SUBFAM_ID, 3, 1, 1033, "My Font".data⟩] ∧
    ∀ r ∈ sanitise_name [] (get_basename_wo_ext "My Font!!.ttf".data),
      r.string ≠ "MyFont".data := by
  refine ⟨by decide, by decide⟩

/-- C3 (amended): for any well-formed name table with no family and no
subfamily records and source filename `"My Font!!.ttf"`, `sanitise_name`
synthesizes one family and one subfamily record under the fixed
(3, 1, 1033) triple whose string value is exactly `"My Font"` (the
exclamation marks and the extension are stripped; the space is preserved
by the allow-list). -/
theorem sanitise_name_myfont (t : List NameRecord) (hnd : keysNodup t)
    (h1 : t.filter (fun rec => rec.nameID == FAMILY_ID) = [])
    (h2 : t.filter (fun rec => rec.nameID == SUBFAM_ID) = []) :
    sanitise_name t (get_basename_wo_ext "My Font!!.ttf".data) =
      t ++ [⟨FAMILY_ID, 3, 1, 1033, "My Font".data⟩,
            ⟨SUBFAM_ID, 3, 1, 1033, "My Font".data⟩] := by
  rw [sanitise_name_eq_spec t _ hnd]
  have hcrop : (sanitise_alphanum
      (get_basename_wo_ext "My Font!!.ttf".data) [' ']).take 32 =
      "My Font".data := by decide
  have step1 : sanitiseRoleSpec FAMILY_ID
      (get_basename_wo_ext "My Font!!.ttf".data) t =
      t ++ [⟨FAMILY_ID, 3, 1, 1033, "My Font".data⟩] := by
    unfold sanitiseRoleSpec
    rw [if_pos h1, hcrop]
  rw [step1]
  have hf2 : (t ++ ([⟨FAMILY_ID, 3, 1, 1033, "My Font".data⟩] :
      List NameRecord)).filter (fun rec => rec.nameID == SUBFAM_ID) = [] := by
    rw [List.filter_append, h2]
    simp [FAMILY_ID, SUBFAM_ID]
  have step2 : sanitiseRoleSpec SUBFAM_ID
      (get_basename_wo_ext "My Font!!.ttf".data)
      (t ++ [⟨FAMILY_ID, 3, 1, 1033, "My Font".data⟩]) =
      (t ++ [⟨FAMILY_ID, 3, 1, 1033, "My Font".data⟩]) ++
        [⟨SUBFAM_ID, 3, 1, 1033, "My Font".data⟩] := by
    unfold sanitiseRoleSpec
    rw [if_pos hf2, hcrop]
  rw [step2, List.append_assoc]
  rfl

/-- Witness for `sanitise_name_myfont` at the empty name table. -/
theorem sanitise_name_myfont_witness :
    sanitise_name [] (get_basename_wo_ext "My Font!!.ttf".data) =
      [⟨FAMILY_ID, 3, 1, 1033, "My Font".data⟩,
       ⟨SUBFAM_ID, 3, 1, 1033, "My Font".data⟩] := by
  have h := sanitise_name_myfont [] (by decide) (by decide) (by decide)
  simpa using h

theorem mem_closure_iter (f : TTFont) (n : Nat) (s : List String)
    (g : String) (hg : g ∈ s) : g ∈ closure_iter f n s := by
  induction n generalizing s with
  | zero => exact hg
  | succ n ih => exact ih _ (List.mem_append_left _ hg)

/-- C1 counterexample: for a font whose character map contains exactly
the code points `{0x41, 0x42}` mapped to glyphs `"A"` and `"B"`, plus an
unreachable glyph `"C"`, `subset_font` retains `"C"` even though it is
not in the glyph closure of the character set — the glyph set is *not*
reduced to the closure reachable from the character set, because
`subset_font` also passes the font's entire glyph order to the
subsetter. -/
theorem subset_font_counterexample :
    character_set fontABC = [0x41, 0x42] ∧
    "C" ∈ (subset_font fontABC).1.glyph_order ∧
    "C" ∉ glyph_closure fontABC
      (glyphs_of_unicodes fontABC (character_set fontABC)) := by
  refine ⟨by decide, by decide, by decide⟩

/-- C1 (amended): `subset_font` computes the character set as the union
of the keys of all Unicode-flagged character-map subtables and passes the
subsetter both that character set and the font's entire glyph order, so
the retained glyph set is the glyph closure of the character-set glyphs
together with all existing glyphs — in particular no existing glyph is
removed, even one unreachable from the character set; all layout feature
tables are retained (`layout_features = ["*"]`), the `"FFTM"` table is
retained when present, and hinting regeneration is disabled. -/
theorem subset_font_spec (f : TTFont) :
    (∀ cp, cp ∈ character_set f ↔
      ∃ t ∈ f.cmap_tables, t.is_unicode = true ∧ ∃ g, (cp, g) ∈ t.cmap) ∧
    (subset_font f).2.layout_features = ["*"] ∧
    (subset_font f).2.hinting = false ∧
    "FFTM" ∈ (subset_font f).2.no_subset_tables ∧
    ("FFTM" ∈ f.tables → "FFTM" ∈ (subset_font f).1.tables) ∧
    (subset_font f).1.glyph_order =
      glyph_closure f
        (glyphs_of_unicodes f (character_set f) ++ f.glyph_order) ∧
    (∀ g ∈ f.glyph_order, g ∈ (subset_font f).1.glyph_order) := by
  refine ⟨?_, rfl, rfl, ?_, ?_, rfl, ?_⟩
  · intro cp
    constructor
    · intro h
      simp only [character_set, List.mem_flatten, List.mem_map] at h
      obtain ⟨l, ⟨t, ht, rfl⟩, hcp⟩ := h
      obtain ⟨p, hp, rfl⟩ := List.mem_map.mp hcp
      have htf := List.mem_filter.mp ht
      exact ⟨t, htf.1, by simpa using htf.2, p.2, by simpa using hp⟩
    · rintro ⟨t, ht, hu, g, hg⟩
      simp only [character_set, List.mem_flatten]
      refine ⟨t.cmap.map (fun p => p.1),
        List.mem_map_of_mem _ (List.mem_filter.mpr ⟨ht, by simp [hu]⟩), ?_⟩
      exact List.mem_map.mpr ⟨(cp, g), hg, rfl⟩
  · simp [subset_font, no_subset_tables_default]
  · intro h
    simp only [subset_font, subsetter_subset]
    exact List.mem_filter.mpr ⟨h, by decide⟩
  · intro g hg
    simp only [subset_font, subsetter_subset, glyph_closure]
    exact mem_closure_iter f _ _ g (List.mem_append_right _ hg)

/-- Witness for `subset_font_spec` at the concrete font: the `"FFTM"`
table survives subsetting and `0x41` is in the character set. -/
theorem subset_font_spec_witness :
    "FFTM" ∈ (subset_font fontABC).1.tables ∧
    0x41 ∈ character_set fontABC := by
  have h := subset_font_spec fontABC
  refine ⟨h.2.2.2.2.1 (by decide), ?_⟩
  exact (h.1 0x41).mpr
    ⟨⟨true, [(0x41, "A"), (0x42, "B")]⟩, by decide, rfl, "A", by decide⟩

end LgFontGen
